import Mathlib

/-!
Shallow embedding of `pagerank.py` (transition_model, sample_pagerank,
iterate_pagerank) and verification of the specification's claims.

Python `dict`s are modelled as association lists in insertion order
(`List (Page × β)`), Python `set`s of pages as `Finset Page`, and Python
floats as exact rationals `ℚ`.  The random source of `sample_pagerank` is
modelled as an oracle of natural numbers choosing indices into the list the
code passes to `random.choice` / `random.choices`.  The unbounded `while`
loop of `iterate_pagerank` is modelled with explicit fuel, returning `none`
when the fuel is exhausted before the convergence test succeeds.
-/

namespace PageRank

abbrev Page := String

/-- A Python dict mapping pages to sets of pages, in insertion order:
the graph type of `pagerank.py`. -/
abbrev Graph := List (Page × Finset Page)

/-- Python `d[k]` / `d.get(k)`: first (= unique, for dict-shaped lists)
binding of key `p`. -/
def dictGet? {β : Type} : List (Page × β) → Page → Option β
  | [], _ => none
  | (k, v) :: rest, p => if p = k then some v else dictGet? rest p

/-- `dictGet?` with a default value, Python `d.get(k, dflt)`. -/
def dictGetD {β : Type} (l : List (Page × β)) (p : Page) (dflt : β) : β :=
  (dictGet? l p).getD dflt

/-- Python `d[k] = v`: replace the value in place if the key is present
(keeping its position, as CPython dicts do), otherwise append a fresh
binding at the end. -/
def dictSet {β : Type} : List (Page × β) → Page → β → List (Page × β)
  | [], p, v => [(p, v)]
  | (k, w) :: rest, p, v =>
      if p = k then (k, v) :: rest else (k, w) :: dictSet rest p v

/-- The key list of a dict, in insertion order (`list(d)`). -/
def dictKeys {β : Type} (l : List (Page × β)) : List Page :=
  l.map Prod.fst

/--
`transition_model(corpus, page, damping_factor)` from `pagerank.py`
(lines 51-79).  `corpus[page]` raises `KeyError` when `page` is not a key,
modelled as `none`.  Otherwise the returned dict assigns, to every corpus
key, `link_pro + random_pro` if the key is in `corpus[page]` and
`random_pro` otherwise, where the two constants depend on whether
`corpus[page]` is empty (Python truthiness of a set).
-/
def transition_model (corpus : Graph) (page : Page) (damping_factor : ℚ) :
    Option (List (Page × ℚ)) :=
  let n : ℚ := corpus.length
  match dictGet? corpus page with
  | none => none
  | some links =>
      let random_pro : ℚ := if links = ∅ then 1 / n else (1 - damping_factor) / n
      let link_pro : ℚ := if links = ∅ then 0 else damping_factor / (links.card : ℚ)
      some (corpus.map (fun e =>
        (e.1, if e.1 ∈ links then link_pro + random_pro else random_pro)))

/-! ### Basic dictionary lemmas -/

theorem dictGet?_mapVal {β γ : Type} (l : List (Page × β)) (g : Page → γ)
    (p : Page) :
    dictGet? (l.map (fun e => (e.1, g e.1))) p =
      if p ∈ dictKeys l then some (g p) else none := by
  induction l with
  | nil => simp [dictGet?, dictKeys]
  | cons e rest ih =>
      have hk : dictKeys (e :: rest) = e.1 :: dictKeys rest := by simp [dictKeys]
      rw [List.map_cons, hk]
      show (if p = e.1 then some (g e.1)
            else dictGet? (rest.map fun e => (e.1, g e.1)) p) = _
      by_cases h : p = e.1
      · subst h
        simp
      · rw [if_neg h, ih]
        by_cases hm : p ∈ dictKeys rest
        · rw [if_pos hm, if_pos (List.mem_cons_of_mem _ hm)]
        · rw [if_neg hm, if_neg (by simp [List.mem_cons, h, hm])]

theorem dictGet?_isSome_of_mem {β : Type} (l : List (Page × β)) (p : Page)
    (h : p ∈ dictKeys l) : ∃ v, dictGet? l p = some v := by
  induction l with
  | nil => simp [dictKeys] at h
  | cons e rest ih =>
      by_cases hp : p = e.1
      · exact ⟨e.2, by simp [dictGet?, hp]⟩
      · simp [dictKeys, hp] at h
        obtain ⟨v, hv⟩ := ih (by simpa [dictKeys] using h)
        exact ⟨v, by simp [dictGet?, hp, hv]⟩

theorem mem_of_dictGet?_eq_some {β : Type} (l : List (Page × β)) (p : Page)
    (v : β) (h : dictGet? l p = some v) : p ∈ dictKeys l := by
  induction l with
  | nil => simp [dictGet?] at h
  | cons e rest ih =>
      by_cases hp : p = e.1
      · subst hp
        simp [dictKeys]
      · simp only [dictGet?, hp, if_false] at h
        have : dictKeys (e :: rest) = e.1 :: dictKeys rest := by
          simp [dictKeys]
        rw [this]
        exact List.mem_cons_of_mem _ (ih h)

/-! ### Claim C4 / C5 : `transition_model` -/

/-- Splitting a mapped sum over a two-way `if`. -/
theorem sum_map_ite {α : Type} (l : List α) (P : α → Prop) [DecidablePred P]
    (x y : ℚ) :
    (l.map fun a => if P a then x else y).sum =
      ((l.filter (fun a => decide (P a))).length : ℚ) * x +
      ((l.filter (fun a => ! decide (P a))).length : ℚ) * y := by
  induction l with
  | nil => simp
  | cons a rest ih =>
      rw [List.map_cons, List.sum_cons, ih, List.filter_cons, List.filter_cons]
      by_cases h : P a
      · rw [if_pos h, if_pos (by simp [h]), if_neg (by simp [h])]
        rw [List.length_cons]
        push_cast
        ring
      · rw [if_neg h, if_neg (by simp [h]), if_pos (by simp [h])]
        rw [List.length_cons]
        push_cast
        ring

theorem filter_length_add {α : Type} (l : List α) (p : α → Bool) :
    (l.filter p).length + (l.filter (fun a => ! p a)).length = l.length := by
  induction l with
  | nil => simp
  | cons a rest ih =>
      by_cases h : p a <;> simp [List.filter_cons, h, ← ih] <;> omega

/-- On a duplicate-free key list that contains all of `L`, the number of
keys lying in `L` is exactly `L.card`. -/
theorem length_filter_mem_finset (L : Finset Page) :
    ∀ ks : List Page, ks.Nodup → L ⊆ ks.toFinset →
      ((ks.filter (fun k => decide (k ∈ L))).length) = L.card := by
  induction L using Finset.strongInduction with
  | _ L ih =>
    intro ks hnd hsub
    induction ks with
    | nil =>
        simp only [List.toFinset_nil] at hsub
        simp [Finset.subset_empty.mp hsub]
    | cons k rest ihk =>
        have hndr : rest.Nodup := (List.nodup_cons.mp hnd).2
        have hknr : k ∉ rest := (List.nodup_cons.mp hnd).1
        by_cases hk : k ∈ L
        · have herase : L.erase k ⊆ rest.toFinset := by
            intro x hx
            have hxL := Finset.mem_of_mem_erase hx
            have hxk := Finset.ne_of_mem_erase hx
            have := hsub hxL
            simp only [List.toFinset_cons, Finset.mem_insert] at this
            exact this.resolve_left hxk
          have hlt : L.erase k ⊂ L := Finset.erase_ssubset hk
          have hrec := ih (L.erase k) hlt rest hndr herase
          have hfeq : rest.filter (fun x => decide (x ∈ L)) =
              rest.filter (fun x => decide (x ∈ L.erase k)) := by
            apply List.filter_congr
            intro x hx
            have hxk : x ≠ k := fun h => hknr (h ▸ hx)
            simp [Finset.mem_erase, hxk]
          rw [List.filter_cons, if_pos (by simp [hk]), List.length_cons, hfeq,
            hrec, Finset.card_erase_of_mem hk]
          have : 0 < L.card := Finset.card_pos.mpr ⟨k, hk⟩
          omega
        · have hsub' : L ⊆ rest.toFinset := by
            intro x hx
            have := hsub hx
            simp only [List.toFinset_cons, Finset.mem_insert] at this
            rcases this with h | h
            · exact absurd (h ▸ hx) hk
            · exact h
          rw [List.filter_cons, if_neg (by simp [hk])]
          exact ihk hndr hsub'

/-- C4: the probability formula of `transition_model`. -/
theorem transition_model_spec (corpus : Graph) (page key : Page) (d : ℚ)
    (L : Finset Page) (hL : dictGet? corpus page = some L)
    (hd0 : 0 ≤ d) (hd1 : d ≤ 1) (hkey : key ∈ dictKeys corpus) :
    ∃ dist, transition_model corpus page d = some dist ∧
      (L ≠ ∅ → dictGet? dist key =
        some (if key ∈ L then d / (L.card : ℚ) + (1 - d) / (corpus.length : ℚ)
              else (1 - d) / (corpus.length : ℚ))) ∧
      (L = ∅ → dictGet? dist key = some (1 / (corpus.length : ℚ))) := by
  by_cases he : L = ∅
  · subst he
    refine ⟨corpus.map (fun e => (e.1, 1 / (corpus.length : ℚ))), ?_, ?_, ?_⟩
    · simp only [transition_model, hL]
      congr 1
    · intro h
      exact absurd rfl h
    · intro _
      rw [dictGet?_mapVal corpus (fun _ => 1 / (corpus.length : ℚ)) key]
      simp [hkey]
  · refine ⟨corpus.map (fun e =>
      (e.1, if e.1 ∈ L then d / (L.card : ℚ) + (1 - d) / (corpus.length : ℚ)
            else (1 - d) / (corpus.length : ℚ))), ?_, ?_, ?_⟩
    · simp only [transition_model, hL]
      congr 1
      apply List.map_congr_left
      intro e _
      simp [he]
    · intro _
      rw [dictGet?_mapVal corpus
        (fun k => if k ∈ L then d / (L.card : ℚ) + (1 - d) / (corpus.length : ℚ)
                  else (1 - d) / (corpus.length : ℚ)) key]
      simp [hkey]
    · intro h
      exact absurd h he

theorem length_filter_map {α β : Type} (l : List α) (f : α → β) (p : β → Bool) :
    ((l.map f).filter p).length = (l.filter (fun a => p (f a))).length := by
  induction l with
  | nil => simp
  | cons a rest ih =>
      rw [List.map_cons, List.filter_cons, List.filter_cons]
      by_cases h : p (f a) = true
      · rw [if_pos h, if_pos h, List.length_cons, List.length_cons, ih]
      · rw [if_neg h, if_neg h, ih]

/-- C5: the distribution returned by `transition_model` sums to exactly 1
(in exact rational arithmetic), for linked and dangling pages alike. -/
theorem transition_model_sum_one (corpus : Graph) (page : Page) (d : ℚ)
    (L : Finset Page) (hnd : (dictKeys corpus).Nodup)
    (hL : dictGet? corpus page = some L)
    (hsub : L ⊆ (dictKeys corpus).toFinset)
    (hd0 : 0 ≤ d) (hd1 : d ≤ 1) :
    ∃ dist, transition_model corpus page d = some dist ∧
      (dist.map Prod.snd).sum = 1 := by
  have hmem : page ∈ dictKeys corpus := mem_of_dictGet?_eq_some _ _ _ hL
  have hlen : 0 < corpus.length := by
    cases corpus with
    | nil => simp [dictKeys] at hmem
    | cons e rest => simp
  have hn : (corpus.length : ℚ) ≠ 0 := by
    exact_mod_cast Nat.pos_iff_ne_zero.mp hlen
  refine ⟨corpus.map (fun e =>
    (e.1, if e.1 ∈ L then
        (if L = ∅ then 0 else d / (L.card : ℚ)) +
          (if L = ∅ then 1 / (corpus.length : ℚ)
           else (1 - d) / (corpus.length : ℚ))
      else (if L = ∅ then 1 / (corpus.length : ℚ)
           else (1 - d) / (corpus.length : ℚ)))), ?_, ?_⟩
  · simp only [transition_model, hL]
  · rw [List.map_map]
    have hcin : ((corpus.filter (fun e => decide (e.1 ∈ L))).length) = L.card := by
      have h1 := length_filter_map corpus Prod.fst (fun k => decide (k ∈ L))
      have h2 := length_filter_mem_finset L (dictKeys corpus) hnd hsub
      rw [show (dictKeys corpus) = corpus.map Prod.fst from rfl] at h2
      rw [← h1]
      exact h2
    have hcsum := filter_length_add corpus (fun e => decide (e.1 ∈ L))
    have hcard_le : L.card ≤ corpus.length := by omega
    have hcout : ((corpus.filter (fun e => ! decide (e.1 ∈ L))).length) =
        corpus.length - L.card := by omega
    show (corpus.map (fun e => if e.1 ∈ L then
        (if L = ∅ then 0 else d / (L.card : ℚ)) +
          (if L = ∅ then 1 / (corpus.length : ℚ)
           else (1 - d) / (corpus.length : ℚ))
      else (if L = ∅ then 1 / (corpus.length : ℚ)
           else (1 - d) / (corpus.length : ℚ)))).sum = 1
    rw [sum_map_ite corpus (fun e => e.1 ∈ L) _ _, hcin, hcout]
    by_cases he : L = ∅
    · subst he
      simp only [if_pos rfl, Finset.card_empty, Nat.cast_zero, zero_mul,
        Nat.sub_zero, zero_add]
      field_simp
    · have hk : (L.card : ℚ) ≠ 0 := by
        have : 0 < L.card := Finset.card_pos.mpr (Finset.nonempty_iff_ne_empty.mpr he)
        exact_mod_cast Nat.pos_iff_ne_zero.mp this
      simp only [if_neg he]
      rw [Nat.cast_sub hcard_le]
      field_simp
      ring

/-! ### `sample_pagerank` (claims C6, C7)

The random source is abstracted as an oracle `ℕ → ℕ` of indices: step `i`
of the walk draws the page `ks[oracle i % |ks|]` from the list `ks` the code
passes to `random.choice` (step 0) / `random.choices` (later steps).  By
`transition_model_keys` below, `list(probability[state])` is always exactly
the corpus key list, so the draw support is modelled faithfully; the weights
only influence which index the (unmodelled) random source picks. -/

/-- Keys of any distribution returned by `transition_model` are the corpus
keys, in order (justifies the oracle model of the weighted draw). -/
theorem transition_model_keys (corpus : Graph) (p : Page) (d : ℚ)
    (dist : List (Page × ℚ)) (h : transition_model corpus p d = some dist) :
    dictKeys dist = dictKeys corpus := by
  unfold transition_model at h
  cases hg : dictGet? corpus p with
  | none => rw [hg] at h; exact absurd h (by simp)
  | some L =>
      rw [hg] at h
      simp only [Option.some_inj] at h
      subst h
      simp [dictKeys, List.map_map]

/-- `ans[state] = ans.get(state, 0) + 1` (line 99 of `pagerank.py`). -/
def updateCount (ans : List (Page × ℕ)) (state : Page) : List (Page × ℕ) :=
  dictSet ans state (dictGetD ans state 0 + 1)

/-- The page the walk is at when iteration `i` of the sampling loop starts:
iteration 0 starts at `random.choice(list(corpus))`, iteration `i+1` at the
page drawn by `random.choices` during iteration `i`; both draws pick an
oracle-chosen element of the corpus key list. -/
def stateSeq (ks : List Page) (oracle : ℕ → ℕ) (i : ℕ) : Page :=
  ks.getD (oracle i % ks.length) ""

/-- The visit-counter dict after `i` iterations of the sampling loop. -/
def walkCounts (ks : List Page) (oracle : ℕ → ℕ) : ℕ → List (Page × ℕ)
  | 0 => []
  | i + 1 => updateCount (walkCounts ks oracle i) (stateSeq ks oracle i)

/-- The pages visited (= counted) during the `n` loop iterations. -/
def visitedPages (ks : List Page) (oracle : ℕ → ℕ) (n : ℕ) : List Page :=
  (List.range n).map (stateSeq ks oracle)

/--
`sample_pagerank(corpus, damping_factor, n)` from `pagerank.py`
(lines 82-105), the random source abstracted by `oracle`.
`random.choice` on the empty corpus raises `IndexError`, modelled as
`Except.error`.
-/
def sample_pagerank (corpus : Graph) (damping_factor : ℚ) (n : ℕ)
    (oracle : ℕ → ℕ) : Except String (List (Page × ℚ)) :=
  let probability := corpus.map
    (fun e => (e.1, transition_model corpus e.1 damping_factor))
  match dictKeys corpus with
  | [] => .error "IndexError: Cannot choose from an empty sequence"
  | _ :: _ =>
      let ans := walkCounts (dictKeys corpus) oracle n
      .ok (ans.map (fun e => (e.1, (e.2 : ℚ) / (n : ℚ))))

theorem dictGet?_cons {β : Type} (e : Page × β) (rest : List (Page × β))
    (p : Page) :
    dictGet? (e :: rest) p = if p = e.1 then some e.2 else dictGet? rest p :=
  rfl

theorem dictSet_cons {β : Type} (e : Page × β) (rest : List (Page × β))
    (p : Page) (v : β) :
    dictSet (e :: rest) p v =
      if p = e.1 then (e.1, v) :: rest else e :: dictSet rest p v :=
  rfl

theorem dictKeys_cons {β : Type} (e : Page × β) (rest : List (Page × β)) :
    dictKeys (e :: rest) = e.1 :: dictKeys rest :=
  rfl

theorem dictGet?_dictSet_self {β : Type} (m : List (Page × β)) (k : Page)
    (v : β) : dictGet? (dictSet m k v) k = some v := by
  induction m with
  | nil => simp [dictSet, dictGet?]
  | cons e rest ih =>
      rw [dictSet_cons]
      by_cases h : k = e.1
      · rw [if_pos h, dictGet?_cons]
        simp [h]
      · rw [if_neg h, dictGet?_cons, if_neg h, ih]

theorem dictGet?_dictSet_other {β : Type} (m : List (Page × β)) (k p : Page)
    (v : β) (h : p ≠ k) : dictGet? (dictSet m k v) p = dictGet? m p := by
  induction m with
  | nil => simp [dictSet, dictGet?, h]
  | cons e rest ih =>
      rw [dictSet_cons, dictGet?_cons]
      by_cases hk : k = e.1
      · rw [if_pos hk, dictGet?_cons]
        simp only [if_neg (hk ▸ h)]
      · rw [if_neg hk, dictGet?_cons, ih]

theorem dictGet?_mapSnd {β γ : Type} (l : List (Page × β)) (f : β → γ)
    (p : Page) :
    dictGet? (l.map (fun e => (e.1, f e.2))) p = (dictGet? l p).map f := by
  induction l with
  | nil => simp [dictGet?]
  | cons e rest ih =>
      rw [List.map_cons, dictGet?_cons, dictGet?_cons]
      by_cases h : p = e.1
      · rw [if_pos h, if_pos h]
        rfl
      · rw [if_neg h, if_neg h, ih]

theorem dictKeys_dictSet {β : Type} (m : List (Page × β)) (k : Page)
    (v : β) : dictKeys (dictSet m k v) =
      if k ∈ dictKeys m then dictKeys m else dictKeys m ++ [k] := by
  induction m with
  | nil => simp [dictSet, dictKeys]
  | cons e rest ih =>
      rw [dictSet_cons]
      by_cases h : k = e.1
      · rw [if_pos h, dictKeys_cons, dictKeys_cons]
        simp [h]
      · rw [if_neg h, dictKeys_cons, dictKeys_cons, ih]
        by_cases hm : k ∈ dictKeys rest
        · rw [if_pos hm, if_pos (by simp [List.mem_cons, hm])]
        · rw [if_neg hm, if_neg (by simp [List.mem_cons, h, hm]), List.cons_append]

/-- Total of all visit counters after `i` iterations is `i`. -/
theorem walkCounts_total (ks : List Page) (oracle : ℕ → ℕ) :
    ∀ i : ℕ, ((walkCounts ks oracle i).map Prod.snd).sum = i := by
  have hupd : ∀ (m : List (Page × ℕ)) (s : Page),
      ((updateCount m s).map Prod.snd).sum = ((m.map Prod.snd).sum) + 1 := by
    intro m s
    unfold updateCount
    induction m with
    | nil => simp [dictSet, dictGetD, dictGet?]
    | cons e rest ih =>
        rw [dictSet_cons]
        by_cases h : s = e.1
        · rw [if_pos h]
          have : dictGetD (e :: rest) s 0 = e.2 := by
            unfold dictGetD
            rw [dictGet?_cons, if_pos h]
            rfl
          rw [this]
          simp only [List.map_cons, List.sum_cons]
          omega
        · rw [if_neg h]
          have : dictGetD (e :: rest) s 0 = dictGetD rest s 0 := by
            unfold dictGetD
            rw [dictGet?_cons, if_neg h]
          rw [this]
          simp only [List.map_cons, List.sum_cons]
          rw [ih]
          omega
  intro i
  induction i with
  | zero => simp [walkCounts]
  | succ i ih => rw [walkCounts, hupd, ih]

/-- The counter dict is exactly the multiset of visited pages: a key is
present iff the page was visited, and its value is the visit count. -/
theorem walkCounts_get (ks : List Page) (oracle : ℕ → ℕ) (p : Page) :
    ∀ n : ℕ, dictGet? (walkCounts ks oracle n) p =
      if (visitedPages ks oracle n).count p = 0 then none
      else some ((visitedPages ks oracle n).count p) := by
  intro n
  induction n with
  | zero => simp [walkCounts, visitedPages, dictGet?]
  | succ n ih =>
      have hvis : visitedPages ks oracle (n + 1) =
          visitedPages ks oracle n ++ [stateSeq ks oracle n] := by
        simp [visitedPages, List.range_succ]
      rw [walkCounts, hvis, List.count_append]
      show dictGet? (dictSet (walkCounts ks oracle n) (stateSeq ks oracle n)
          (dictGetD (walkCounts ks oracle n) (stateSeq ks oracle n) 0 + 1)) p = _
      by_cases h : p = stateSeq ks oracle n
      · rw [← h, dictGet?_dictSet_self]
        have hone : (List.count p [p]) = 1 := by simp
        rw [hone]
        unfold dictGetD
        rw [ih]
        by_cases hz : (visitedPages ks oracle n).count p = 0
        · rw [if_pos hz, hz, if_neg (by omega)]
          simp
        · rw [if_neg hz, if_neg (by omega)]
          simp
      · rw [dictGet?_dictSet_other _ _ _ _ h, ih]
        have hzero : (List.count p [stateSeq ks oracle n]) = 0 := by
          rw [List.count_eq_zero]
          simp [h]
        rw [hzero]
        simp

theorem sum_map_snd_div (m : List (Page × ℕ)) (c : ℚ) :
    (m.map (fun x => ((x.2 : ℚ) / c))).sum = (((m.map Prod.snd).sum : ℕ) : ℚ) / c := by
  induction m with
  | nil => simp
  | cons e rest ih =>
      rw [List.map_cons, List.sum_cons, ih, List.map_cons, List.sum_cons]
      push_cast
      rw [add_div]

/-- C6: the values returned by `sample_pagerank` sum to exactly 1, whatever
the random draws were, because each loop iteration increments exactly one
counter and the counters total `num_samples`. -/
theorem sample_pagerank_sum_one (corpus : Graph) (d : ℚ) (n : ℕ)
    (oracle : ℕ → ℕ) (hne : corpus ≠ []) (hn : 0 < n) :
    ∃ ans, sample_pagerank corpus d n oracle = .ok ans ∧
      (ans.map Prod.snd).sum = 1 := by
  cases corpus with
  | nil => exact absurd rfl hne
  | cons e rest =>
      have heq : sample_pagerank (e :: rest) d n oracle =
          .ok ((walkCounts (dictKeys (e :: rest)) oracle n).map
            (fun x => (x.1, (x.2 : ℚ) / (n : ℚ)))) := rfl
      refine ⟨_, heq, ?_⟩
      rw [List.map_map]
      have hcomp : ((walkCounts (dictKeys (e :: rest)) oracle n).map
          (Prod.snd ∘ fun x => (x.1, (x.2 : ℚ) / (n : ℚ)))).sum =
          ((walkCounts (dictKeys (e :: rest)) oracle n).map
            (fun x => ((x.2 : ℚ) / (n : ℚ)))).sum := rfl
      rw [hcomp, sum_map_snd_div, walkCounts_total]
      exact div_self (by exact_mod_cast Nat.pos_iff_ne_zero.mp hn)

/-- C7: the mapping returned by `sample_pagerank` has a key exactly for each
page visited by the walk, with value visit-count / num_samples; unvisited
pages are absent. -/
theorem sample_pagerank_visit_counts (corpus : Graph) (d : ℚ) (n : ℕ)
    (oracle : ℕ → ℕ) (p : Page) (hne : corpus ≠ []) (hn : 0 < n) :
    ∃ ans, sample_pagerank corpus d n oracle = .ok ans ∧
      (p ∈ dictKeys ans ↔ p ∈ visitedPages (dictKeys corpus) oracle n) ∧
      dictGet? ans p =
        (if p ∈ visitedPages (dictKeys corpus) oracle n
         then some ((((visitedPages (dictKeys corpus) oracle n).count p : ℕ) : ℚ)
           / (n : ℚ))
         else none) := by
  cases corpus with
  | nil => exact absurd rfl hne
  | cons e rest =>
      have heq : sample_pagerank (e :: rest) d n oracle =
          .ok ((walkCounts (dictKeys (e :: rest)) oracle n).map
            (fun x => (x.1, (x.2 : ℚ) / (n : ℚ)))) := rfl
      refine ⟨_, heq, ?_, ?_⟩
      · constructor
        · intro hmem
          have hmem' : p ∈ dictKeys (walkCounts (dictKeys (e :: rest)) oracle n) := by
            have heqk : dictKeys ((walkCounts (dictKeys (e :: rest)) oracle n).map
                (fun x => (x.1, (x.2 : ℚ) / (n : ℚ)))) =
                dictKeys (walkCounts (dictKeys (e :: rest)) oracle n) := by
              simp [dictKeys, List.map_map]
            rwa [heqk] at hmem
          obtain ⟨v, hv⟩ := dictGet?_isSome_of_mem _ _ hmem'
          rw [walkCounts_get] at hv
          by_cases hz : (visitedPages (dictKeys (e :: rest)) oracle n).count p = 0
          · rw [if_pos hz] at hv
            exact absurd hv (by simp)
          · have hpos : 0 < (visitedPages (dictKeys (e :: rest)) oracle n).count p :=
              Nat.pos_of_ne_zero hz
            exact List.count_pos_iff_mem.mp hpos
        · intro hvis
          have hcnt : (visitedPages (dictKeys (e :: rest)) oracle n).count p ≠ 0 :=
            Nat.pos_iff_ne_zero.mp (List.count_pos_iff_mem.mpr hvis)
          have hv : dictGet? (walkCounts (dictKeys (e :: rest)) oracle n) p =
              some ((visitedPages (dictKeys (e :: rest)) oracle n).count p) := by
            rw [walkCounts_get, if_neg hcnt]
          have hmem' : p ∈ dictKeys (walkCounts (dictKeys (e :: rest)) oracle n) :=
            mem_of_dictGet?_eq_some _ _ _ hv
          have heqk : dictKeys ((walkCounts (dictKeys (e :: rest)) oracle n).map
              (fun x => (x.1, (x.2 : ℚ) / (n : ℚ)))) =
              dictKeys (walkCounts (dictKeys (e :: rest)) oracle n) := by
            simp [dictKeys, List.map_map]
          rw [heqk]
          exact hmem'
      · have hmap : dictGet? ((walkCounts (dictKeys (e :: rest)) oracle n).map
            (fun x => (x.1, (x.2 : ℚ) / (n : ℚ)))) p =
            (dictGet? (walkCounts (dictKeys (e :: rest)) oracle n) p).map
              (fun v => ((v : ℕ) : ℚ) / (n : ℚ)) :=
          dictGet?_mapSnd (walkCounts (dictKeys (e :: rest)) oracle n)
            (fun v => ((v : ℕ) : ℚ) / (n : ℚ)) p
        rw [hmap, walkCounts_get]
        by_cases hvis : p ∈ visitedPages (dictKeys (e :: rest)) oracle n
        · have hcnt : (visitedPages (dictKeys (e :: rest)) oracle n).count p ≠ 0 :=
            Nat.pos_iff_ne_zero.mp (List.count_pos_iff_mem.mpr hvis)
          rw [if_neg hcnt, if_pos hvis]
          rfl
        · have hcnt : (visitedPages (dictKeys (e :: rest)) oracle n).count p = 0 :=
            List.count_eq_zero.mpr hvis
          rw [if_pos hcnt, if_neg hvis]
          rfl


/-! ### `iterate_pagerank` (claims C1, C2, C3, C8, C9, C10)

Lines 108-161 of `pagerank.py`.  The `while change:` loop has no iteration
bound, so it is modelled with explicit fuel: `none` means the convergence
test had not yet succeeded within `fuel` passes. -/

/-- Lines 119-121: `for key, joins in corpus.items(): if not joins:
corpus[key] = {x for x in corpus}`.  This rewrites the caller's dict in
place (the keys never change, so iterating while mutating is sound); the
resulting dict — both the working graph used below and the state of the
caller's argument after the call — is: -/
def preprocess (corpus : Graph) : Graph :=
  corpus.map (fun e =>
    (e.1, if e.2 = ∅ then (dictKeys corpus).toFinset else e.2))

/-- Lines 122-133: the reverse link dict `links`.  `links` maps a page `i`
to the set of pages whose outbound set contains `i`; entries are only ever
created non-empty and only grow, so `i in links` is equivalent to this set
being non-empty.  Only membership (`i in links`) and the set of elements
(`for j in links[i]`) are consumed, so the dict is modelled by its
denotation. -/
def revIndex (corpus : Graph) (i : Page) : Finset Page :=
  ((corpus.filter (fun e => decide (i ∈ e.2))).map Prod.fst).toFinset

/-- The rank dict as a total function (`pr[j]`, defaulting to 0; the code
only ever reads keys that are present). -/
def prFun (pr : List (Page × ℚ)) : Page → ℚ := fun p => dictGetD pr p 0

/-- `corpus[j]` in the working graph (`len(corpus[j])` at line 148). -/
def outSet (C : Graph) (j : Page) : Finset Page := dictGetD C j ∅

/-- Lines 144-157: the `new_value` computed for page `i` from the current
rank assignment `f` (= `pr` at that moment): `((1-damping_factor)/n) +
(damping_factor*sumation)` if `i in links`, else `(1-damping_factor)/n`. -/
def newValueF (C : Graph) (d : ℚ) (f : Page → ℚ) (i : Page) : ℚ :=
  if revIndex C i ≠ ∅ then
    (1 - d) / (C.length : ℚ) +
      d * (revIndex C i).sum (fun j => f j / ((outSet C j).card : ℚ))
  else
    (1 - d) / (C.length : ℚ)

/-- One iteration of `for i in corpus:` (lines 143-160): compute
`new_value` from the current `pr`, compare with `pr[i]`, set `change` if
`diff >= 0.001`, then assign `pr[i] = new_value` in place. -/
def passStep (C : Graph) (d : ℚ) (st : List (Page × ℚ) × Bool) (i : Page) :
    List (Page × ℚ) × Bool :=
  let new_value := newValueF C d (prFun st.1) i
  let diff := |prFun st.1 i - new_value|
  (dictSet st.1 i new_value, if diff ≥ 1 / 1000 then true else st.2)

/-- One full pass of the `while` body (lines 142-160), starting with
`change = False`. -/
def iterPass (C : Graph) (d : ℚ) (pr : List (Page × ℚ)) :
    List (Page × ℚ) × Bool :=
  (dictKeys C).foldl (passStep C d) (pr, false)

/-- The `while change:` loop (lines 141-160), with fuel. -/
def iterLoop (C : Graph) (d : ℚ) :
    ℕ → List (Page × ℚ) → Bool → Option (List (Page × ℚ))
  | _, pr, false => some pr
  | 0, _, true => none
  | fuel + 1, pr, true =>
      let st := iterPass C d pr
      iterLoop C d fuel st.1 st.2

/--
`iterate_pagerank(corpus, damping_factor)` from `pagerank.py`
(lines 108-161).  `n = len(corpus)` is read before the dangling rewrite,
which does not change the length; the initial `pr` maps every key to
`1/n`.
-/
def iterate_pagerank (corpus : Graph) (damping_factor : ℚ) (fuel : ℕ) :
    Option (List (Page × ℚ)) :=
  let C := preprocess corpus
  let pr := C.map (fun e => (e.1, 1 / (corpus.length : ℚ)))
  iterLoop C damping_factor fuel pr true

/-- The state of the caller's `corpus` dict after `iterate_pagerank`
returns: the in-place dangling rewrite of lines 119-121 is the only
mutation the function performs on its argument. -/
def corpusAfterIterate (corpus : Graph) : Graph :=
  preprocess corpus


/-! ### Generic lemmas about passes and the loop -/

theorem dictKeys_map {β γ : Type} (l : List (Page × β)) (g : Page × β → γ) :
    dictKeys (l.map (fun e => (e.1, g e))) = dictKeys l := by
  induction l with
  | nil => rfl
  | cons e rest ih =>
      rw [List.map_cons, dictKeys_cons, dictKeys_cons, ih]

theorem prFun_dictSet (pr : List (Page × ℚ)) (i : Page) (v : ℚ) :
    prFun (dictSet pr i v) = Function.update (prFun pr) i v := by
  funext q
  unfold prFun dictGetD
  by_cases h : q = i
  · subst h
    rw [dictGet?_dictSet_self, Function.update_same]
    rfl
  · rw [dictGet?_dictSet_other _ _ _ _ h, Function.update_noteq h]

theorem prFun_passStep_self (C : Graph) (d : ℚ) (st : List (Page × ℚ) × Bool)
    (i : Page) :
    prFun (passStep C d st i).1 i = newValueF C d (prFun st.1) i := by
  show prFun (dictSet st.1 i (newValueF C d (prFun st.1) i)) i = _
  rw [prFun_dictSet, Function.update_same]

theorem prFun_passStep_other (C : Graph) (d : ℚ) (st : List (Page × ℚ) × Bool)
    (i p : Page) (h : p ≠ i) :
    prFun (passStep C d st i).1 p = prFun st.1 p := by
  show prFun (dictSet st.1 i (newValueF C d (prFun st.1) i)) p = _
  rw [prFun_dictSet, Function.update_noteq h]

theorem foldl_passStep_prFun_not_mem (C : Graph) (d : ℚ) :
    ∀ (l : List Page) (st : List (Page × ℚ) × Bool) (p : Page), p ∉ l →
      prFun (l.foldl (passStep C d) st).1 p = prFun st.1 p := by
  intro l
  induction l with
  | nil => intro st p _; rfl
  | cons i rest ih =>
      intro st p hp
      rw [List.foldl_cons]
      have hpi : p ≠ i := fun h => hp (h ▸ List.mem_cons_self i rest)
      rw [ih _ _ (fun h => hp (List.mem_cons_of_mem i h)),
        prFun_passStep_other C d st i p hpi]

/-- Helper: the value `iterPass` computes for page `p` equals the update
formula applied to the state obtained by folding the pass over the pages
preceding `p`. -/
theorem iterPass_value_eq_prefix_state (C : Graph) (d : ℚ)
    (pr : List (Page × ℚ)) (l₁ l₂ : List Page) (p : Page)
    (hsplit : dictKeys C = l₁ ++ p :: l₂) (hnd : (dictKeys C).Nodup) :
    prFun (iterPass C d pr).1 p =
      newValueF C d (prFun (l₁.foldl (passStep C d) (pr, false)).1) p := by
  unfold iterPass
  rw [hsplit, List.foldl_append, List.foldl_cons]
  have hnotmem : p ∉ l₂ := by
    rw [hsplit] at hnd
    have := (List.nodup_append.mp hnd).2.1
    exact (List.nodup_cons.mp this).1
  rw [foldl_passStep_prFun_not_mem C d l₂ _ p hnotmem, prFun_passStep_self]

/-- C1 (amended): the code's pass is a Gauss-Seidel sweep, not a Jacobi
one: the value computed for a page `p` is the update formula applied to the
*current, partially updated* rank dict — pages before `p` in iteration
order have already been overwritten with their new values when `p`'s
`sumation` is read, while `p` itself and later pages still hold the
previous pass's values. -/
theorem iterPass_reads_updated_prefix (C : Graph) (d : ℚ)
    (pr : List (Page × ℚ)) (l₁ l₂ : List Page) (p : Page)
    (hsplit : dictKeys C = l₁ ++ p :: l₂) (hnd : (dictKeys C).Nodup) :
    prFun (iterPass C d pr).1 p =
      newValueF C d (prFun (l₁.foldl (passStep C d) (pr, false)).1) p :=
  iterPass_value_eq_prefix_state C d pr l₁ l₂ p hsplit hnd

/-- The 2-page graph used as counterexample input: `a` links to `b`,
`b` is dangling. -/
def corpusAB : Graph := [("a", {"b"}), ("b", (∅ : Finset Page))]

/-- The initial rank dict `iterate_pagerank` builds for `corpusAB`. -/
def prAB0 : List (Page × ℚ) :=
  (preprocess corpusAB).map (fun e => (e.1, 1 / (corpusAB.length : ℚ)))

/-- Modelled from the spec: the synchronous (Jacobi) pass of §4.4, in which
every page's `new_rank` is computed from the previous pass's ranks only
("no in-pass read-after-write dependency").  Stated from the spec's words,
for comparison with the code's `iterPass`. -/
def jacobiPass (C : Graph) (d : ℚ) (pr : List (Page × ℚ)) :
    List (Page × ℚ) :=
  pr.map (fun e => (e.1, newValueF C d (prFun pr) e.1))


theorem prFun_mapVal (l : List (Page × ℚ)) (g : Page → ℚ) (p : Page)
    (hp : p ∈ dictKeys l) :
    prFun (l.map (fun e => (e.1, g e.1))) p = g p := by
  unfold prFun dictGetD
  rw [dictGet?_mapVal l g p, if_pos hp]
  rfl

theorem newValueF_corpusAB_b (f : Page → ℚ) :
    newValueF (preprocess corpusAB) (17/20) f "b" =
      (1 - 17/20) / ((2:ℕ) : ℚ) +
        (17/20) * (f "a" / ((1:ℕ) : ℚ) + f "b" / ((2:ℕ) : ℚ)) := by
  unfold newValueF
  rw [show revIndex (preprocess corpusAB) "b" = {"a", "b"} from by decide]
  rw [if_pos (by decide : ¬({"a", "b"} : Finset Page) = ∅)]
  rw [Finset.sum_insert (by decide : ("a" : Page) ∉ ({"b"} : Finset Page)),
    Finset.sum_singleton]
  rw [show outSet (preprocess corpusAB) "a" = {"b"} from by decide,
    show outSet (preprocess corpusAB) "b" = {"a", "b"} from by decide]
  rw [show (({"b"} : Finset Page)).card = 1 from by decide,
    show (({"a", "b"} : Finset Page)).card = 2 from by decide,
    show (preprocess corpusAB).length = 2 from by decide]

theorem newValueF_corpusAB_a (f : Page → ℚ) :
    newValueF (preprocess corpusAB) (17/20) f "a" =
      (1 - 17/20) / ((2:ℕ) : ℚ) + (17/20) * (f "b" / ((2:ℕ) : ℚ)) := by
  unfold newValueF
  rw [show revIndex (preprocess corpusAB) "a" = {"b"} from by decide]
  rw [if_pos (by decide : ¬({"b"} : Finset Page) = ∅)]
  rw [Finset.sum_singleton]
  rw [show outSet (preprocess corpusAB) "b" = {"a", "b"} from by decide]
  rw [show (({"a", "b"} : Finset Page)).card = 2 from by decide,
    show (preprocess corpusAB).length = 2 from by decide]

/-- C1 counterexample: on the two-page graph `a → b`, `b` dangling, with
damping 0.85 and the uniform initial ranks, the first pass of the code
computes a value for `b` (reading `a`'s already-updated rank) different
from the synchronous (Jacobi) pass the spec describes. -/
theorem iterPass_ne_jacobiPass_corpusAB :
    prFun ((iterPass (preprocess corpusAB) (17/20) prAB0).1) "b" ≠
      prFun (jacobiPass (preprocess corpusAB) (17/20) prAB0) "b" := by
  have hpa : prFun prAB0 "a" = 1 / ((2:ℕ) : ℚ) := rfl
  have hpb : prFun prAB0 "b" = 1 / ((2:ℕ) : ℚ) := rfl
  -- Gauss-Seidel side
  have hGS := iterPass_value_eq_prefix_state (preprocess corpusAB) (17/20)
    prAB0 ["a"] [] "b" (by decide) (by decide)
  have hst1 : (["a"].foldl (passStep (preprocess corpusAB) (17/20))
      (prAB0, false)).1 = (passStep (preprocess corpusAB) (17/20)
      (prAB0, false) "a").1 := rfl
  have hs1a : prFun (passStep (preprocess corpusAB) (17/20)
      (prAB0, false) "a").1 "a" =
      newValueF (preprocess corpusAB) (17/20) (prFun prAB0) "a" :=
    prFun_passStep_self _ _ _ _
  have hs1b : prFun (passStep (preprocess corpusAB) (17/20)
      (prAB0, false) "a").1 "b" = prFun prAB0 "b" :=
    prFun_passStep_other _ _ _ _ _ (by decide)
  -- Jacobi side
  have hjac : prFun (jacobiPass (preprocess corpusAB) (17/20) prAB0) "b" =
      newValueF (preprocess corpusAB) (17/20) (prFun prAB0) "b" := by
    unfold jacobiPass
    exact prFun_mapVal prAB0 _ "b" (by decide)
  rw [hGS, hst1, hjac, newValueF_corpusAB_b, newValueF_corpusAB_b,
    hs1a, hs1b, newValueF_corpusAB_a, hpa, hpb]
  push_cast
  norm_num

/-! ### Claim C2: mutation of the caller's graph -/

/-- C2 counterexample: calling `iterate_pagerank` on a one-page graph whose
page is dangling leaves the caller's dict changed — the dangling entry has
been rewritten in place. -/
theorem iterate_mutates_callers_graph :
    corpusAfterIterate [("a", (∅ : Finset Page))] ≠
      [("a", (∅ : Finset Page))] := by decide

theorem list_map_eq_self_iff {α : Type} (l : List α) (f : α → α) :
    l.map f = l ↔ ∀ e ∈ l, f e = e := by
  induction l with
  | nil => simp
  | cons a rest ih =>
      rw [List.map_cons]
      constructor
      · intro h
        have h1 := (List.cons.injEq _ _ _ _).mp h
        intro e he
        rcases List.mem_cons.mp he with he | he
        · rw [he, h1.1]
        · exact (ih.mp h1.2) e he
      · intro h
        rw [h a (List.mem_cons_self a rest),
          ih.mpr (fun e he => h e (List.mem_cons_of_mem a he))]

/-- C2 (amended): `iterate_pagerank` rewrites dangling entries of the
caller's dict in place; the caller's graph is left unchanged exactly when
it has no dangling page. -/
theorem corpusAfterIterate_eq_iff (corpus : Graph) :
    corpusAfterIterate corpus = corpus ↔ ∀ e ∈ corpus, e.2 ≠ ∅ := by
  unfold corpusAfterIterate preprocess
  rw [list_map_eq_self_iff]
  constructor
  · intro h e he
    intro hemp
    have := h e he
    rw [if_pos hemp] at this
    have h1 : (dictKeys corpus).toFinset = e.2 :=
      congrArg Prod.snd this
    have hmem : e.1 ∈ dictKeys corpus := List.mem_map_of_mem Prod.fst he
    rw [hemp] at h1
    have : e.1 ∈ (dictKeys corpus).toFinset := List.mem_toFinset.mpr hmem
    rw [h1] at this
    exact absurd this (Finset.not_mem_empty _)
  · intro h e he
    rw [if_neg (h e he)]

/-! ### Claim C3: behaviour on the empty graph -/

/-- C3 counterexample: on the empty graph, `iterate_pagerank` does not fail
at all — the loops never execute and it returns the empty mapping. -/
theorem iterate_pagerank_empty_no_error :
    iterate_pagerank [] (17/20) 2 = some [] := by decide

/-- C3 (amended): on the empty graph, `transition_model` fails with a
`KeyError` (any requested page is unknown), `sample_pagerank` fails with
`random.choice`'s `IndexError` — neither a dedicated "empty corpus"
error — and `iterate_pagerank` silently returns the empty mapping (its
convergence loop exits after one pass over zero pages); no NaN/Inf-like
division by zero is ever performed. -/
theorem empty_graph_behaviour :
    (∀ (page : Page) (d : ℚ), transition_model [] page d = none) ∧
    (∀ (d : ℚ) (n : ℕ) (oracle : ℕ → ℕ),
      sample_pagerank [] d n oracle =
        .error "IndexError: Cannot choose from an empty sequence") ∧
    (∀ d : ℚ, iterate_pagerank [] d 2 = some []) := by
  refine ⟨fun page d => rfl, fun d n oracle => rfl, fun d => rfl⟩

/-! ### Claim C8: the reverse index after dangling preprocessing -/

/-- The 3-page graph `a → b`, `b → a`, `c → a`: it satisfies every input
invariant and has no dangling page, yet `c` has no incoming link. -/
def corpus3 : Graph := [("a", {"b"}), ("b", {"a"}), ("c", {"a"})]

/-- C8 counterexample: on `corpus3` — a graph satisfying the input
invariants — the page `c` has an *empty* reverse index even after the
dangling-page preprocessing (which rewrites nothing, as no page is
dangling), so the defensive `else` branch (lines 154-160) is reachable. -/
theorem revIndex_empty_counterexample :
    ((dictKeys corpus3).Nodup ∧
      (∀ e ∈ corpus3, e.2 ⊆ (dictKeys corpus3).toFinset) ∧
      (∀ e ∈ corpus3, e.1 ∉ e.2)) ∧
    "c" ∈ dictKeys (preprocess corpus3) ∧
    revIndex (preprocess corpus3) "c" = ∅ := by decide

/-- C8 (amended): *provided the graph has at least one dangling page*, the
preprocessing step links that page to every page, so after it every page
has a non-empty reverse index and the defensive fallback branch cannot
run. -/
theorem revIndex_nonempty_of_dangling (corpus : Graph)
    (e₀ : Page × Finset Page) (he₀ : e₀ ∈ corpus) (hd : e₀.2 = ∅)
    (p : Page) (hp : p ∈ dictKeys corpus) :
    revIndex (preprocess corpus) p ≠ ∅ := by
  have hmem : (e₀.1, (dictKeys corpus).toFinset) ∈ preprocess corpus := by
    unfold preprocess
    refine List.mem_map.mpr ⟨e₀, he₀, ?_⟩
    rw [if_pos hd]
  have hpK : p ∈ (dictKeys corpus).toFinset := List.mem_toFinset.mpr hp
  have hfil : (e₀.1, (dictKeys corpus).toFinset) ∈
      (preprocess corpus).filter (fun e => decide (p ∈ e.2)) :=
    List.mem_filter.mpr ⟨hmem, decide_eq_true hpK⟩
  have : e₀.1 ∈ revIndex (preprocess corpus) p := by
    unfold revIndex
    exact List.mem_toFinset.mpr
      (List.mem_map.mpr ⟨(e₀.1, (dictKeys corpus).toFinset), hfil, rfl⟩)
  exact Finset.ne_empty_of_mem this


/-! ### Claim C10: the iterative result's key set -/

theorem iterLoop_false (C : Graph) (d : ℚ) (fuel : ℕ)
    (pr : List (Page × ℚ)) : iterLoop C d fuel pr false = some pr := by
  cases fuel <;> rfl

theorem iterLoop_true_succ (C : Graph) (d : ℚ) (fuel : ℕ)
    (pr : List (Page × ℚ)) :
    iterLoop C d (fuel + 1) pr true =
      iterLoop C d fuel (iterPass C d pr).1 (iterPass C d pr).2 :=
  rfl

theorem iterLoop_true_zero (C : Graph) (d : ℚ) (pr : List (Page × ℚ)) :
    iterLoop C d 0 pr true = none :=
  rfl

theorem foldl_passStep_keys (C : Graph) (d : ℚ) :
    ∀ (l : List Page) (st : List (Page × ℚ) × Bool),
      (∀ i ∈ l, i ∈ dictKeys st.1) →
      dictKeys (l.foldl (passStep C d) st).1 = dictKeys st.1 := by
  intro l
  induction l with
  | nil => intro st _; rfl
  | cons i rest ih =>
      intro st hmem
      rw [List.foldl_cons]
      have hkeys : dictKeys (passStep C d st i).1 = dictKeys st.1 := by
        show dictKeys (dictSet st.1 i _) = _
        rw [dictKeys_dictSet, if_pos (hmem i (List.mem_cons_self i rest))]
      have h2 : ∀ j ∈ rest, j ∈ dictKeys (passStep C d st i).1 := by
        intro j hj
        rw [hkeys]
        exact hmem j (List.mem_cons_of_mem i hj)
      rw [ih (passStep C d st i) h2, hkeys]

theorem iterPass_keys (C : Graph) (d : ℚ) (pr : List (Page × ℚ))
    (h : dictKeys pr = dictKeys C) :
    dictKeys (iterPass C d pr).1 = dictKeys C := by
  unfold iterPass
  rw [foldl_passStep_keys C d (dictKeys C) (pr, false)
    (fun i hi => h ▸ hi)]
  exact h

theorem iterLoop_keys (C : Graph) (d : ℚ) :
    ∀ (fuel : ℕ) (pr : List (Page × ℚ)) (ch : Bool) (res : List (Page × ℚ)),
      dictKeys pr = dictKeys C → iterLoop C d fuel pr ch = some res →
      dictKeys res = dictKeys C := by
  intro fuel
  induction fuel with
  | zero =>
      intro pr ch res hk h
      cases ch
      · rw [iterLoop_false] at h
        injection h with h
        rw [← h]
        exact hk
      · rw [iterLoop_true_zero] at h
        exact Option.noConfusion h
  | succ fuel ih =>
      intro pr ch res hk h
      cases ch
      · rw [iterLoop_false] at h
        injection h with h
        rw [← h]
        exact hk
      · rw [iterLoop_true_succ] at h
        exact ih _ _ _ (iterPass_keys C d pr hk) h

/-- C10: whenever `iterate_pagerank` returns, its result has exactly the
graph's pages as keys (in the graph's own order): no page is missing and
none is added. -/
theorem iterate_pagerank_keys (corpus : Graph) (d : ℚ) (fuel : ℕ)
    (pr : List (Page × ℚ)) (hne : corpus ≠ [])
    (h : iterate_pagerank corpus d fuel = some pr) :
    dictKeys pr = dictKeys corpus := by
  unfold iterate_pagerank at h
  have hC : dictKeys (preprocess corpus) = dictKeys corpus := by
    unfold preprocess
    exact dictKeys_map corpus _
  have hinit : dictKeys ((preprocess corpus).map
      (fun e => (e.1, 1 / (corpus.length : ℚ)))) =
      dictKeys (preprocess corpus) :=
    dictKeys_map _ _
  have := iterLoop_keys (preprocess corpus) d fuel _ true pr
    (hinit.trans rfl) h
  rw [this, hC]


def corpus1 : Graph := [("a", (∅ : Finset Page))]

def pr10 : List (Page × ℚ) :=
  (preprocess corpus1).map (fun e => (e.1, 1 / (corpus1.length : ℚ)))

theorem newValueF_corpus1_a (f : Page → ℚ) :
    newValueF (preprocess corpus1) (17/20) f "a" =
      (1 - 17/20) / ((1:ℕ) : ℚ) + (17/20) * (f "a" / ((1:ℕ) : ℚ)) := by
  unfold newValueF
  rw [show revIndex (preprocess corpus1) "a" = {"a"} from by decide]
  rw [if_pos (by decide : ¬({"a"} : Finset Page) = ∅)]
  rw [Finset.sum_singleton]
  rw [show outSet (preprocess corpus1) "a" = {"a"} from by decide]
  rw [show (({"a"} : Finset Page)).card = 1 from by decide,
    show (preprocess corpus1).length = 1 from by decide]

theorem iterate_pagerank_corpus1 :
    iterate_pagerank corpus1 (17/20) 2 = some [("a", (1 : ℚ))] := by
  have hpr : prFun pr10 "a" = 1 / ((1:ℕ) : ℚ) := rfl
  have hnv : newValueF (preprocess corpus1) (17/20) (prFun pr10) "a" = 1 := by
    rw [newValueF_corpus1_a, hpr]
    push_cast
    norm_num
  show iterLoop (preprocess corpus1) (17/20) 2 pr10 true = some [("a", (1:ℚ))]
  rw [iterLoop_true_succ]
  have hflag : (iterPass (preprocess corpus1) (17/20) pr10).2 = false := by
    show (if |prFun pr10 "a" - newValueF (preprocess corpus1) (17/20)
        (prFun pr10) "a"| ≥ 1/1000 then true else false) = false
    rw [if_neg]
    rw [hnv, hpr]
    push_cast
    norm_num
  have hdict : (iterPass (preprocess corpus1) (17/20) pr10).1 =
      [("a", newValueF (preprocess corpus1) (17/20) (prFun pr10) "a")] := rfl
  rw [hflag, iterLoop_false, hdict, hnv]

theorem iterate_pagerank_keys_witness :
    dictKeys [(("a" : Page), (1 : ℚ))] =
      dictKeys [(("a" : Page), (∅ : Finset Page))] :=
  iterate_pagerank_keys corpus1 (17/20) 2 [("a", (1:ℚ))] (by decide)
    iterate_pagerank_corpus1

/-! ### Witnesses -/

theorem iterPass_reads_updated_prefix_witness :
    prFun (iterPass (preprocess corpusAB) (17/20) prAB0).1 "b" =
      newValueF (preprocess corpusAB) (17/20)
        (prFun ((["a"] : List Page).foldl
          (passStep (preprocess corpusAB) (17/20)) (prAB0, false)).1) "b" :=
  iterPass_reads_updated_prefix (preprocess corpusAB) (17/20) prAB0
    ["a"] [] "b" (by decide) (by decide)

theorem transition_model_spec_witness :
    ∃ dist, transition_model corpusAB "a" (17/20) = some dist ∧
      (({"b"} : Finset Page) ≠ ∅ → dictGet? dist "b" =
        some (if "b" ∈ ({"b"} : Finset Page) then
            (17/20) / ((({"b"} : Finset Page).card : ℚ)) +
              (1 - 17/20) / ((corpusAB.length : ℚ))
          else (1 - 17/20) / ((corpusAB.length : ℚ)))) ∧
      (({"b"} : Finset Page) = ∅ →
        dictGet? dist "b" = some (1 / ((corpusAB.length : ℚ)))) :=
  transition_model_spec corpusAB "a" "b" (17/20) {"b"} (by decide)
    (by norm_num) (by norm_num) (by decide)

theorem transition_model_sum_one_witness :
    ∃ dist, transition_model corpusAB "a" (17/20) = some dist ∧
      (dist.map Prod.snd).sum = 1 :=
  transition_model_sum_one corpusAB "a" (17/20) {"b"} (by decide) (by decide)
    (by decide) (by norm_num) (by norm_num)

theorem sample_pagerank_sum_one_witness :
    ∃ ans, sample_pagerank corpusAB (17/20) 4 (fun i => i) = .ok ans ∧
      (ans.map Prod.snd).sum = 1 :=
  sample_pagerank_sum_one corpusAB (17/20) 4 (fun i => i) (by decide)
    (by decide)

theorem sample_pagerank_visit_counts_witness :
    ∃ ans, sample_pagerank corpusAB (17/20) 4 (fun i => i) = .ok ans ∧
      ("a" ∈ dictKeys ans ↔
        "a" ∈ visitedPages (dictKeys corpusAB) (fun i => i) 4) ∧
      dictGet? ans "a" =
        (if "a" ∈ visitedPages (dictKeys corpusAB) (fun i => i) 4
         then some ((((visitedPages (dictKeys corpusAB) (fun i => i) 4).count
             "a" : ℕ) : ℚ) / ((4 : ℕ) : ℚ))
         else none) :=
  sample_pagerank_visit_counts corpusAB (17/20) 4 (fun i => i) "a"
    (by decide) (by decide)

theorem revIndex_nonempty_of_dangling_witness :
    revIndex (preprocess corpus1) "a" ≠ ∅ :=
  revIndex_nonempty_of_dangling corpus1 ("a", ∅) (by decide) rfl "a"
    (by decide)


/-! ### Claim C9: termination of the convergence loop

The analysis works on a functional model of the pass (`fpassF`), proved
equivalent to the association-list fold the code performs.  The diffs of
consecutive passes contract in a weighted L1 norm with factor `d`, so
eventually every per-page diff falls below the 0.001 threshold and the
`while` loop's `change` flag stays `False`. -/

/-- The value part of one pass, as a function transformer. -/
def fpassF (C : Graph) (d : ℚ) : List Page → (Page → ℚ) → (Page → ℚ)
  | [], f => f
  | p :: rest, f => fpassF C d rest (Function.update f p (newValueF C d f p))

theorem fpassF_nil (C : Graph) (d : ℚ) (f : Page → ℚ) :
    fpassF C d [] f = f := rfl

theorem fpassF_cons (C : Graph) (d : ℚ) (p : Page) (rest : List Page)
    (f : Page → ℚ) :
    fpassF C d (p :: rest) f =
      fpassF C d rest (Function.update f p (newValueF C d f p)) := rfl

theorem fpassF_not_mem (C : Graph) (d : ℚ) :
    ∀ (l : List Page) (f : Page → ℚ) (p : Page), p ∉ l →
      fpassF C d l f p = f p := by
  intro l
  induction l with
  | nil => intro f p _; rfl
  | cons i rest ih =>
      intro f p hp
      rw [fpassF_cons]
      have hpi : p ≠ i := fun h => hp (h ▸ List.mem_cons_self i rest)
      rw [ih _ p (fun h => hp (List.mem_cons_of_mem i h)),
        Function.update_noteq hpi]

theorem fpassF_append (C : Graph) (d : ℚ) :
    ∀ (l₁ l₂ : List Page) (f : Page → ℚ),
      fpassF C d (l₁ ++ l₂) f = fpassF C d l₂ (fpassF C d l₁ f) := by
  intro l₁
  induction l₁ with
  | nil => intro l₂ f; rfl
  | cons i rest ih =>
      intro l₂ f
      rw [List.cons_append, fpassF_cons, fpassF_cons, ih]

/-- Value of `p` after a full pass: the update formula applied to the state
reached after processing the pages before `p`. -/
theorem fpassF_split (C : Graph) (d : ℚ) (l₁ l₂ : List Page) (p : Page)
    (f : Page → ℚ) (hnd : (l₁ ++ p :: l₂).Nodup) :
    fpassF C d (l₁ ++ p :: l₂) f p =
      newValueF C d (fpassF C d l₁ f) p := by
  rw [fpassF_append, fpassF_cons]
  have hp : p ∉ l₂ := by
    have := (List.nodup_append.mp hnd).2.1
    exact (List.nodup_cons.mp this).1
  rw [fpassF_not_mem C d l₂ _ p hp, Function.update_same]

/-- Pages in the prefix keep, after the full pass, the values the prefix
fold gave them. -/
theorem fpassF_prefix_val (C : Graph) (d : ℚ) (l₁ l₂ : List Page)
    (p q : Page) (f : Page → ℚ) (hnd : (l₁ ++ p :: l₂).Nodup)
    (hq : q ∈ l₁) :
    fpassF C d (l₁ ++ p :: l₂) f q = fpassF C d l₁ f q := by
  rw [fpassF_append]
  have hqn : q ∉ p :: l₂ := by
    intro hmem
    have hdisj := List.disjoint_of_nodup_append hnd
    exact hdisj hq hmem
  exact fpassF_not_mem C d (p :: l₂) _ q hqn

/-- The association-list fold of the code and the functional pass agree on
values. -/
theorem foldl_passStep_fst (C : Graph) (d : ℚ) :
    ∀ (l : List Page) (st : List (Page × ℚ) × Bool),
      prFun (l.foldl (passStep C d) st).1 = fpassF C d l (prFun st.1) := by
  intro l
  induction l with
  | nil => intro st; rfl
  | cons i rest ih =>
      intro st
      rw [List.foldl_cons, ih, fpassF_cons]
      have hupd : prFun (passStep C d st i).1 =
          Function.update (prFun st.1) i (newValueF C d (prFun st.1) i) := by
        show prFun (dictSet st.1 i (newValueF C d (prFun st.1) i)) = _
        exact prFun_dictSet _ _ _
      rw [hupd]

/-- The `change` flag set by the fold is `true` iff it was already set or
some page's absolute change during the pass reaches the 0.001 threshold. -/
theorem foldl_passStep_flag (C : Graph) (d : ℚ) :
    ∀ (l : List Page) (st : List (Page × ℚ) × Bool), l.Nodup →
      ((l.foldl (passStep C d) st).2 = true ↔
        st.2 = true ∨ ∃ p ∈ l,
          |prFun st.1 p - fpassF C d l (prFun st.1) p| ≥ 1 / 1000) := by
  intro l
  induction l with
  | nil =>
      intro st _
      simp [List.foldl]
  | cons i rest ih =>
      intro st hnd
      have hir : i ∉ rest := (List.nodup_cons.mp hnd).1
      have hndr : rest.Nodup := (List.nodup_cons.mp hnd).2
      rw [List.foldl_cons, ih _ hndr]
      have hfst : prFun (passStep C d st i).1 =
          Function.update (prFun st.1) i (newValueF C d (prFun st.1) i) := by
        show prFun (dictSet st.1 i (newValueF C d (prFun st.1) i)) = _
        exact prFun_dictSet _ _ _
      have hsnd : (passStep C d st i).2 =
          (if |prFun st.1 i - newValueF C d (prFun st.1) i| ≥ 1 / 1000
           then true else st.2) := rfl
      have hvali : fpassF C d (i :: rest) (prFun st.1) i =
          newValueF C d (prFun st.1) i := by
        have : ([] : List Page) ++ i :: rest = i :: rest := rfl
        rw [← this]
        exact fpassF_split C d [] rest i (prFun st.1) (by simpa using hnd)
      constructor
      · rintro (hch | ⟨q, hq, habs⟩)
        · rw [hsnd] at hch
          by_cases hd : |prFun st.1 i - newValueF C d (prFun st.1) i| ≥ 1 / 1000
          · exact Or.inr ⟨i, List.mem_cons_self i rest, by rw [hvali]; exact hd⟩
          · rw [if_neg hd] at hch
            exact Or.inl hch
        · refine Or.inr ⟨q, List.mem_cons_of_mem i hq, ?_⟩
          have hqi : q ≠ i := fun h => hir (h ▸ hq)
          have h1 : prFun (passStep C d st i).1 q = prFun st.1 q := by
            rw [hfst, Function.update_noteq hqi]
          have h2 : fpassF C d rest (prFun (passStep C d st i).1) q =
              fpassF C d (i :: rest) (prFun st.1) q := by
            rw [fpassF_cons, hfst]
          rw [h1, h2] at habs
          exact habs
      · rintro (hch | ⟨q, hq, habs⟩)
        · rw [hsnd]
          by_cases hd : |prFun st.1 i - newValueF C d (prFun st.1) i| ≥ 1 / 1000
          · rw [if_pos hd]
            exact Or.inl rfl
          · rw [if_neg hd]
            exact Or.inl hch
        · rcases List.mem_cons.mp hq with hqi | hqr
          · subst hqi
            rw [hvali] at habs
            rw [hsnd]
            rw [if_pos habs]
            exact Or.inl rfl
          · refine Or.inr ⟨q, hqr, ?_⟩
            have hqi : q ≠ i := fun h => hir (h ▸ hqr)
            have h1 : prFun (passStep C d st i).1 q = prFun st.1 q := by
              rw [hfst, Function.update_noteq hqi]
            have h2 : fpassF C d rest (prFun (passStep C d st i).1) q =
                fpassF C d (i :: rest) (prFun st.1) q := by
              rw [fpassF_cons, hfst]
            rw [h1, h2]
            exact habs

theorem iterPass_fst (C : Graph) (d : ℚ) (pr : List (Page × ℚ)) :
    prFun (iterPass C d pr).1 = fpassF C d (dictKeys C) (prFun pr) :=
  foldl_passStep_fst C d (dictKeys C) (pr, false)

theorem iterPass_flag_false (C : Graph) (d : ℚ) (pr : List (Page × ℚ))
    (hnd : (dictKeys C).Nodup)
    (h : ∀ p ∈ dictKeys C,
      |prFun pr p - fpassF C d (dictKeys C) (prFun pr) p| < 1 / 1000) :
    (iterPass C d pr).2 = false := by
  by_cases hfl : (iterPass C d pr).2 = true
  · exfalso
    have := (foldl_passStep_flag C d (dictKeys C) (pr, false) hnd).mp hfl
    rcases this with hch | ⟨p, hp, habs⟩
    · exact Bool.false_ne_true hch
    · exact absurd habs (not_le.mpr (h p hp))
  · exact Bool.not_eq_true _ |>.mp hfl


/-- `len(corpus[j])` as a rational. -/
def degQ (C : Graph) (j : Page) : ℚ := ((outSet C j).card : ℚ)

theorem dictGet?_of_mem_nodup {β : Type} :
    ∀ (l : List (Page × β)) (e : Page × β), e ∈ l → (dictKeys l).Nodup →
      dictGet? l e.1 = some e.2 := by
  intro l
  induction l with
  | nil => intro e he _; exact absurd he (List.not_mem_nil e)
  | cons a rest ih =>
      intro e he hnd
      rw [dictKeys_cons] at hnd
      rcases List.mem_cons.mp he with rfl | hr
      · rw [dictGet?_cons, if_pos rfl]
      · have hkey : e.1 ∈ dictKeys rest := List.mem_map_of_mem Prod.fst hr
        have hne : e.1 ≠ a.1 := by
          intro heq
          exact (List.nodup_cons.mp hnd).1 (heq ▸ hkey)
        rw [dictGet?_cons, if_neg hne]
        exact ih e hr (List.nodup_cons.mp hnd).2

theorem mem_revIndex_iff (C : Graph) (p x : Page) :
    x ∈ revIndex C p ↔ ∃ e ∈ C, e.1 = x ∧ p ∈ e.2 := by
  unfold revIndex
  rw [List.mem_toFinset, List.mem_map]
  constructor
  · rintro ⟨e, hef, rfl⟩
    have := List.mem_filter.mp hef
    exact ⟨e, this.1, rfl, of_decide_eq_true this.2⟩
  · rintro ⟨e, he, rfl, hp⟩
    exact ⟨e, List.mem_filter.mpr ⟨he, decide_eq_true hp⟩, rfl⟩

theorem revIndex_subset_keys (C : Graph) (p : Page) :
    ∀ x ∈ revIndex C p, x ∈ dictKeys C := by
  intro x hx
  obtain ⟨e, he, rfl, _⟩ := (mem_revIndex_iff C p x).mp hx
  exact List.mem_map_of_mem Prod.fst he

/-- With duplicate-free keys, the reverse index is the set of keys whose
outbound set contains `p`. -/
theorem revIndex_eq_filter (C : Graph) (hnd : (dictKeys C).Nodup)
    (p : Page) :
    revIndex C p =
      (dictKeys C).toFinset.filter (fun q => p ∈ outSet C q) := by
  ext x
  rw [mem_revIndex_iff, Finset.mem_filter, List.mem_toFinset]
  constructor
  · rintro ⟨e, he, rfl, hp⟩
    refine ⟨List.mem_map_of_mem Prod.fst he, ?_⟩
    show p ∈ dictGetD C e.1 ∅
    unfold dictGetD
    rw [dictGet?_of_mem_nodup C e he hnd]
    exact hp
  · rintro ⟨hx, hp⟩
    obtain ⟨e, he, rfl⟩ := List.mem_map.mp hx
    refine ⟨e, he, rfl, ?_⟩
    have : dictGetD C e.1 ∅ = e.2 := by
      unfold dictGetD
      rw [dictGet?_of_mem_nodup C e he hnd]
      rfl
    rw [show outSet C e.1 = dictGetD C e.1 ∅ from rfl, this] at hp
    exact hp

theorem newValueF_sub (C : Graph) (d : ℚ) (f₁ f₂ : Page → ℚ) (p : Page) :
    newValueF C d f₂ p - newValueF C d f₁ p =
      d * (revIndex C p).sum (fun j => (f₂ j - f₁ j) / degQ C j) := by
  unfold newValueF
  by_cases h : revIndex C p = ∅
  · rw [if_neg (fun hc => hc h), if_neg (fun hc => hc h), h]
    simp
  · rw [if_pos h, if_pos h]
    have hs : (revIndex C p).sum (fun j => (f₂ j - f₁ j) / degQ C j) =
        (revIndex C p).sum (fun j => f₂ j / degQ C j) -
          (revIndex C p).sum (fun j => f₁ j / degQ C j) := by
      rw [← Finset.sum_sub_distrib]
      exact Finset.sum_congr rfl (fun j _ => sub_div _ _ _)
    rw [hs]
    show (1 - d) / (C.length : ℚ) +
        d * (revIndex C p).sum (fun j => f₂ j / ((outSet C j).card : ℚ)) -
        ((1 - d) / (C.length : ℚ) +
          d * (revIndex C p).sum (fun j => f₁ j / ((outSet C j).card : ℚ))) = _
    ring_nf
    rfl

/-- The change of page `p` between two consecutive passes, as a function of
the changes of its reverse-linked pages: already-repassed pages (those
before `p`) contribute their newest change, the others the previous one. -/
theorem delta_recurrence (C : Graph) (d : ℚ) (l₁ l₂ : List Page) (p : Page)
    (hsplit : dictKeys C = l₁ ++ p :: l₂) (hnd : (dictKeys C).Nodup)
    (f y z : Page → ℚ) (hy : y = fpassF C d (dictKeys C) f)
    (hz : z = fpassF C d (dictKeys C) y) :
    z p - y p = d * (revIndex C p).sum
      (fun j => (if j ∈ l₁ then z j - y j else y j - f j) / degQ C j) := by
  have hnd' : (l₁ ++ p :: l₂).Nodup := hsplit ▸ hnd
  have hzp : z p = newValueF C d (fpassF C d l₁ y) p := by
    rw [hz, hsplit]
    exact fpassF_split C d l₁ l₂ p y hnd'
  have hyp : y p = newValueF C d (fpassF C d l₁ f) p := by
    rw [hy, hsplit]
    exact fpassF_split C d l₁ l₂ p f hnd'
  rw [hzp, hyp, newValueF_sub]
  congr 1
  refine Finset.sum_congr rfl (fun j _ => ?_)
  congr 1
  by_cases hj : j ∈ l₁
  · rw [if_pos hj]
    have h1 : fpassF C d l₁ y j = z j := by
      rw [hz, hsplit]
      exact (fpassF_prefix_val C d l₁ l₂ p j y hnd' hj).symm
    have h2 : fpassF C d l₁ f j = y j := by
      rw [hy, hsplit]
      exact (fpassF_prefix_val C d l₁ l₂ p j f hnd' hj).symm
    rw [h1, h2]
  · rw [if_neg hj]
    rw [fpassF_not_mem C d l₁ y j hj, fpassF_not_mem C d l₁ f j hj]


theorem takeWhile_ne_prefix :
    ∀ (l₁ : List Page) (p : Page) (l₂ : List Page),
      (l₁ ++ p :: l₂).Nodup →
      (l₁ ++ p :: l₂).takeWhile (fun x => decide (x ≠ p)) = l₁ := by
  intro l₁
  induction l₁ with
  | nil =>
      intro p l₂ _
      show (p :: l₂).takeWhile (fun x => decide (x ≠ p)) = []
      rw [List.takeWhile_cons]
      simp
  | cons a l₁ ih =>
      intro p l₂ hnd
      have hmem : a ∉ l₁ ++ p :: l₂ := (List.nodup_cons.mp (by
        rwa [List.cons_append] at hnd)).1
      have hap : a ≠ p := by
        intro h
        apply hmem
        rw [h]
        exact List.mem_append_right l₁ (List.mem_cons_self p l₂)
      rw [List.cons_append, List.takeWhile_cons, if_pos (by
        simpa using hap)]
      have hnd' : (l₁ ++ p :: l₂).Nodup := (List.nodup_cons.mp (by
        rwa [List.cons_append] at hnd)).2
      rw [ih p l₂ hnd']

/-- Per-page contraction inequality, with the prefix condition expressed
split-independently via `takeWhile`. -/
theorem delta_abs_bound (C : Graph) (d : ℚ) (hd0 : 0 ≤ d)
    (p : Page) (hp : p ∈ dictKeys C) (hnd : (dictKeys C).Nodup)
    (f y z : Page → ℚ) (hy : y = fpassF C d (dictKeys C) f)
    (hz : z = fpassF C d (dictKeys C) y) :
    |z p - y p| ≤ d * (revIndex C p).sum (fun j =>
      (if j ∈ (dictKeys C).takeWhile (fun x => decide (x ≠ p))
       then |z j - y j| else |y j - f j|) / degQ C j) := by
  obtain ⟨l₁, l₂, hsplit⟩ := List.append_of_mem hp
  have htw : (dictKeys C).takeWhile (fun x => decide (x ≠ p)) = l₁ := by
    rw [hsplit]
    exact takeWhile_ne_prefix l₁ p l₂ (hsplit ▸ hnd)
  rw [htw, delta_recurrence C d l₁ l₂ p hsplit hnd f y z hy hz, abs_mul,
    abs_of_nonneg hd0]
  apply mul_le_mul_of_nonneg_left _ hd0
  calc |(revIndex C p).sum
        (fun j => (if j ∈ l₁ then z j - y j else y j - f j) / degQ C j)|
      ≤ (revIndex C p).sum
        (fun j => |(if j ∈ l₁ then z j - y j else y j - f j) / degQ C j|) :=
        Finset.abs_sum_le_sum_abs _ _
    _ = (revIndex C p).sum (fun j =>
        (if j ∈ l₁ then |z j - y j| else |y j - f j|) / degQ C j) := by
        refine Finset.sum_congr rfl (fun j _ => ?_)
        rw [abs_div, abs_of_nonneg (show (0:ℚ) ≤ degQ C j from
          Nat.cast_nonneg _)]
        congr 1
        by_cases hj : j ∈ l₁
        · rw [if_pos hj, if_pos hj]
        · rw [if_neg hj, if_neg hj]


/-- Column swap: summing over each page's reverse set equals summing over
each page's outbound set (when outbound sets stay inside the page set). -/
theorem sum_rev_swap (PF : Finset Page) (out rev : Page → Finset Page)
    (hout : ∀ q ∈ PF, out q ⊆ PF)
    (hrev : ∀ p, rev p = PF.filter (fun q => p ∈ out q))
    (F : Page → Page → ℚ) :
    PF.sum (fun p => (rev p).sum (fun j => F j p)) =
      PF.sum (fun j => (out j).sum (fun p => F j p)) := by
  have h1 : ∀ p, (rev p).sum (fun j => F j p) =
      PF.sum (fun j => if p ∈ out j then F j p else 0) := by
    intro p
    rw [hrev p, Finset.sum_filter]
  rw [Finset.sum_congr rfl (fun p _ => h1 p), Finset.sum_comm]
  refine Finset.sum_congr rfl (fun j hj => ?_)
  rw [← Finset.sum_filter]
  congr 1
  ext x
  rw [Finset.mem_filter]
  exact ⟨fun h => h.2, fun hx => ⟨hout j hj hx, hx⟩⟩

/-- The weighted L1 contraction: with weights
`w j = 1 - d * (a j / deg j)` (where `a j` counts `j`'s outbound links to
pages `r` with `R j r`), a family of per-page bounds of the Gauss-Seidel
shape contracts the weighted norm by `d`. -/
theorem weighted_contraction (PF : Finset Page) (out rev : Page → Finset Page)
    (hout : ∀ q ∈ PF, out q ⊆ PF)
    (hrev : ∀ p, rev p = PF.filter (fun q => p ∈ out q))
    (R : Page → Page → Prop) [inst : ∀ j p, Decidable (R j p)]
    (d : ℚ) (hd0 : 0 ≤ d) (hd1 : d ≤ 1)
    (w : Page → ℚ)
    (hw : ∀ j, w j = 1 - d *
      ((((out j).filter (fun p => R j p)).card : ℚ) / ((out j).card : ℚ)))
    (D1 D2 : Page → ℚ) (hD1 : ∀ j, 0 ≤ D1 j) (hD2 : ∀ j, 0 ≤ D2 j)
    (hbound : ∀ p ∈ PF, D2 p ≤ d * (rev p).sum (fun j =>
      (if R j p then D2 j else D1 j) / ((out j).card : ℚ))) :
    PF.sum (fun j => w j * D2 j) ≤ d * PF.sum (fun j => w j * D1 j) := by
  classical
  set a : Page → ℕ := fun j => ((out j).filter (fun p => R j p)).card with ha
  set b : Page → ℕ := fun j => ((out j).filter (fun p => ¬ R j p)).card with hb
  have hab : ∀ j, a j + b j = (out j).card := fun j =>
    Finset.filter_card_add_filter_neg_card_eq_card _
  -- Step 1: sum the per-page bounds and swap the double sum.
  have hstep1 : PF.sum D2 ≤ d * PF.sum (fun j =>
      ((a j : ℚ) * D2 j + (b j : ℚ) * D1 j) / ((out j).card : ℚ)) := by
    calc PF.sum D2
        ≤ PF.sum (fun p => d * (rev p).sum (fun j =>
            (if R j p then D2 j else D1 j) / ((out j).card : ℚ))) :=
          Finset.sum_le_sum hbound
      _ = d * PF.sum (fun p => (rev p).sum (fun j =>
            (if R j p then D2 j else D1 j) / ((out j).card : ℚ))) := by
          rw [Finset.mul_sum]
      _ = d * PF.sum (fun j => (out j).sum (fun p =>
            (if R j p then D2 j else D1 j) / ((out j).card : ℚ))) := by
          rw [sum_rev_swap PF out rev hout hrev]
      _ = d * PF.sum (fun j =>
            ((a j : ℚ) * D2 j + (b j : ℚ) * D1 j) / ((out j).card : ℚ)) := by
          congr 1
          refine Finset.sum_congr rfl (fun j _ => ?_)
          rw [← Finset.sum_div]
          congr 1
          rw [Finset.sum_ite, Finset.sum_const, Finset.sum_const,
            nsmul_eq_mul, nsmul_eq_mul]
  -- Step 2: rearrange into the weighted norms.
  have hexp : PF.sum (fun j => w j * D2 j) =
      PF.sum D2 - d * PF.sum (fun j =>
        ((a j : ℚ) / ((out j).card : ℚ)) * D2 j) := by
    rw [Finset.mul_sum, ← Finset.sum_sub_distrib]
    refine Finset.sum_congr rfl (fun j _ => ?_)
    rw [hw j]
    ring
  have hsplit2 : PF.sum (fun j =>
      ((a j : ℚ) * D2 j + (b j : ℚ) * D1 j) / ((out j).card : ℚ)) =
      PF.sum (fun j => ((a j : ℚ) / ((out j).card : ℚ)) * D2 j) +
      PF.sum (fun j => ((b j : ℚ) / ((out j).card : ℚ)) * D1 j) := by
    rw [← Finset.sum_add_distrib]
    refine Finset.sum_congr rfl (fun j _ => ?_)
    rw [add_div]
    ring
  have hmain : PF.sum (fun j => w j * D2 j) ≤
      d * PF.sum (fun j => ((b j : ℚ) / ((out j).card : ℚ)) * D1 j) := by
    rw [hexp]
    have := hstep1
    rw [hsplit2, mul_add] at this
    linarith
  -- Step 3: term-by-term, b/deg ≤ w.
  have hterm : ∀ j, ((b j : ℚ) / ((out j).card : ℚ)) * D1 j ≤ w j * D1 j := by
    intro j
    apply mul_le_mul_of_nonneg_right _ (hD1 j)
    rw [hw j]
    rw [show (Finset.filter (fun p => R j p) (out j)).card = a j from rfl]
    by_cases hdeg : (out j).card = 0
    · have haz : a j = 0 := by
        have := hab j
        omega
      have hbz : b j = 0 := by
        have := hab j
        omega
      rw [haz, hbz, hdeg]
      norm_num
    · have hdegpos : (0 : ℚ) < ((out j).card : ℚ) := by
        exact_mod_cast Nat.pos_of_ne_zero hdeg
      rw [div_le_iff hdegpos]
      have hda : d * (a j : ℚ) ≤ (a j : ℚ) := by
        calc d * (a j : ℚ) ≤ 1 * (a j : ℚ) :=
              mul_le_mul_of_nonneg_right hd1 (Nat.cast_nonneg _)
          _ = (a j : ℚ) := one_mul _
      have habq : (a j : ℚ) + (b j : ℚ) = ((out j).card : ℚ) := by
        exact_mod_cast hab j
      have expand : (1 - d * ((a j : ℚ) / ((out j).card : ℚ))) *
          ((out j).card : ℚ) = ((out j).card : ℚ) - d * (a j : ℚ) := by
        field_simp
      rw [expand]
      linarith
  calc PF.sum (fun j => w j * D2 j)
      ≤ d * PF.sum (fun j => ((b j : ℚ) / ((out j).card : ℚ)) * D1 j) := hmain
    _ ≤ d * PF.sum (fun j => w j * D1 j) :=
        mul_le_mul_of_nonneg_left (Finset.sum_le_sum (fun j _ => hterm j)) hd0

/-- The functional iterate chain: ranks after `k` full passes. -/
def prSeqF (C : Graph) (d : ℚ) (f0 : Page → ℚ) : ℕ → (Page → ℚ)
  | 0 => f0
  | k + 1 => fpassF C d (dictKeys C) (prSeqF C d f0 k)

/-- Per-page absolute change of pass `k+1`. -/
def deltaSeq (C : Graph) (d : ℚ) (f0 : Page → ℚ) (k : ℕ) : Page → ℚ :=
  fun p => |prSeqF C d f0 (k + 1) p - prSeqF C d f0 k p|

/-- The contraction weight of page `j`: `1 - d` times the fraction of `j`'s
outbound links pointing to pages processed after `j`'s own update is read. -/
def wFun (C : Graph) (d : ℚ) (j : Page) : ℚ :=
  1 - d * ((((outSet C j).filter (fun p =>
      j ∈ (dictKeys C).takeWhile (fun x => decide (x ≠ p)))).card : ℚ) /
    ((outSet C j).card : ℚ))

/-- The weighted L1 norm used in the termination argument. -/
def Wnorm (C : Graph) (d : ℚ) (D : Page → ℚ) : ℚ :=
  (dictKeys C).toFinset.sum (fun j => wFun C d j * D j)

theorem exists_entry_of_dictGet? {β : Type} :
    ∀ (l : List (Page × β)) (p : Page) (v : β), dictGet? l p = some v →
      ∃ e ∈ l, e.1 = p ∧ e.2 = v := by
  intro l
  induction l with
  | nil => intro p v h; exact absurd h (by simp [dictGet?])
  | cons a rest ih =>
      intro p v h
      rw [dictGet?_cons] at h
      by_cases hp : p = a.1
      · rw [if_pos hp] at h
        injection h with h
        exact ⟨a, List.mem_cons_self a rest, hp.symm, h⟩
      · rw [if_neg hp] at h
        obtain ⟨e, he, h1, h2⟩ := ih p v h
        exact ⟨e, List.mem_cons_of_mem a he, h1, h2⟩

theorem outSet_subset (C : Graph)
    (hout : ∀ e ∈ C, e.2 ⊆ (dictKeys C).toFinset) (q : Page) :
    outSet C q ⊆ (dictKeys C).toFinset := by
  show dictGetD C q ∅ ⊆ _
  unfold dictGetD
  cases hg : dictGet? C q with
  | none => simp
  | some v =>
      obtain ⟨e, he, _, h2⟩ := exists_entry_of_dictGet? C q v hg
      rw [show (some v).getD ∅ = v from rfl, ← h2]
      exact hout e he

/-- One pass contracts the weighted norm of the per-page changes by `d`. -/
theorem Wnorm_contract (C : Graph) (d : ℚ) (hnd : (dictKeys C).Nodup)
    (hout : ∀ e ∈ C, e.2 ⊆ (dictKeys C).toFinset)
    (hd0 : 0 ≤ d) (hd1 : d ≤ 1) (f0 : Page → ℚ) (k : ℕ) :
    Wnorm C d (deltaSeq C d f0 (k + 1)) ≤ d * Wnorm C d (deltaSeq C d f0 k) := by
  apply weighted_contraction (dictKeys C).toFinset (outSet C) (revIndex C)
    (fun q _ => outSet_subset C hout q)
    (fun p => revIndex_eq_filter C hnd p)
    (fun j p => j ∈ (dictKeys C).takeWhile (fun x => decide (x ≠ p)))
    d hd0 hd1 (wFun C d) (fun j => rfl)
    (deltaSeq C d f0 k) (deltaSeq C d f0 (k + 1))
    (fun j => abs_nonneg _) (fun j => abs_nonneg _)
  intro p hp
  have hpk : p ∈ dictKeys C := List.mem_toFinset.mp hp
  exact delta_abs_bound C d hd0 p hpk hnd (prSeqF C d f0 k)
    (prSeqF C d f0 (k + 1)) (prSeqF C d f0 (k + 2)) rfl rfl

theorem Wnorm_nonneg (C : Graph) (d : ℚ) (hd0 : 0 ≤ d) (hd1 : d ≤ 1)
    (D : Page → ℚ) (hD : ∀ p, 0 ≤ D p) : 0 ≤ Wnorm C d D := by
  apply Finset.sum_nonneg
  intro j _
  apply mul_nonneg _ (hD j)
  unfold wFun
  have hfrac : ((((outSet C j).filter (fun p =>
      j ∈ (dictKeys C).takeWhile (fun x => decide (x ≠ p)))).card : ℚ) /
      ((outSet C j).card : ℚ)) ≤ 1 := by
    by_cases hz : (outSet C j).card = 0
    · rw [hz]
      norm_num
    · rw [div_le_one (by exact_mod_cast Nat.pos_of_ne_zero hz)]
      exact_mod_cast Finset.card_filter_le _ _
  have : d * ((((outSet C j).filter (fun p =>
      j ∈ (dictKeys C).takeWhile (fun x => decide (x ≠ p)))).card : ℚ) /
      ((outSet C j).card : ℚ)) ≤ d * 1 :=
    mul_le_mul_of_nonneg_left hfrac hd0
  linarith

theorem wFun_ge (C : Graph) (d : ℚ) (hd0 : 0 ≤ d) (hd1 : d ≤ 1) (j : Page) :
    1 - d ≤ wFun C d j := by
  unfold wFun
  have hfrac : ((((outSet C j).filter (fun p =>
      j ∈ (dictKeys C).takeWhile (fun x => decide (x ≠ p)))).card : ℚ) /
      ((outSet C j).card : ℚ)) ≤ 1 := by
    by_cases hz : (outSet C j).card = 0
    · rw [hz]
      norm_num
    · rw [div_le_one (by exact_mod_cast Nat.pos_of_ne_zero hz)]
      exact_mod_cast Finset.card_filter_le _ _
  have hfrac0 : (0:ℚ) ≤ ((((outSet C j).filter (fun p =>
      j ∈ (dictKeys C).takeWhile (fun x => decide (x ≠ p)))).card : ℚ) /
      ((outSet C j).card : ℚ)) :=
    div_nonneg (Nat.cast_nonneg _) (Nat.cast_nonneg _)
  nlinarith

/-- Per-page extraction from the weighted norm. -/
theorem delta_le_Wnorm (C : Graph) (d : ℚ) (hd0 : 0 ≤ d) (hd1 : d ≤ 1)
    (D : Page → ℚ) (hD : ∀ p, 0 ≤ D p) (p : Page) (hp : p ∈ dictKeys C) :
    (1 - d) * D p ≤ Wnorm C d D := by
  have h1 : (1 - d) * D p ≤ wFun C d p * D p :=
    mul_le_mul_of_nonneg_right (wFun_ge C d hd0 hd1 p) (hD p)
  have h2 : wFun C d p * D p ≤ Wnorm C d D := by
    apply Finset.single_le_sum (fun j _ => ?_) (List.mem_toFinset.mpr hp)
    exact mul_nonneg (le_trans (by linarith) (wFun_ge C d hd0 hd1 j)) (hD j)
  linarith

theorem Wnorm_geom (C : Graph) (d : ℚ) (hnd : (dictKeys C).Nodup)
    (hout : ∀ e ∈ C, e.2 ⊆ (dictKeys C).toFinset)
    (hd0 : 0 ≤ d) (hd1 : d ≤ 1) (f0 : Page → ℚ) :
    ∀ k : ℕ, Wnorm C d (deltaSeq C d f0 k) ≤
      d ^ k * Wnorm C d (deltaSeq C d f0 0) := by
  intro k
  induction k with
  | zero => simp
  | succ k ih =>
      calc Wnorm C d (deltaSeq C d f0 (k + 1))
          ≤ d * Wnorm C d (deltaSeq C d f0 k) :=
            Wnorm_contract C d hnd hout hd0 hd1 f0 k
        _ ≤ d * (d ^ k * Wnorm C d (deltaSeq C d f0 0)) :=
            mul_le_mul_of_nonneg_left ih hd0
        _ = d ^ (k + 1) * Wnorm C d (deltaSeq C d f0 0) := by ring

/-- Eventually every per-page change of a pass is below the threshold. -/
theorem exists_small_pass (C : Graph) (d : ℚ) (hnd : (dictKeys C).Nodup)
    (hout : ∀ e ∈ C, e.2 ⊆ (dictKeys C).toFinset)
    (hd0 : 0 ≤ d) (hd1 : d < 1) (f0 : Page → ℚ) :
    ∃ k, ∀ p ∈ dictKeys C, deltaSeq C d f0 k p < 1 / 1000 := by
  have hd1' : d ≤ 1 := le_of_lt hd1
  set W0 := Wnorm C d (deltaSeq C d f0 0) with hW0
  have hW0nn : 0 ≤ W0 :=
    Wnorm_nonneg C d hd0 hd1' _ (fun p => abs_nonneg _)
  have hpos : (0:ℚ) < ((1 - d) / 1000) / (W0 + 1) := by
    apply div_pos
    · linarith
    · linarith
  obtain ⟨k, hk⟩ := exists_pow_lt_of_lt_one hpos hd1
  refine ⟨k, fun p hp => ?_⟩
  have h1 : (1 - d) * deltaSeq C d f0 k p ≤ Wnorm C d (deltaSeq C d f0 k) :=
    delta_le_Wnorm C d hd0 hd1' _ (fun q => abs_nonneg _) p hp
  have h2 : Wnorm C d (deltaSeq C d f0 k) ≤ d ^ k * W0 :=
    Wnorm_geom C d hnd hout hd0 hd1' f0 k
  have h3 : d ^ k * W0 < (1 - d) / 1000 := by
    have hk' : d ^ k * (W0 + 1) < (((1 - d) / 1000) / (W0 + 1)) * (W0 + 1) :=
      mul_lt_mul_of_pos_right hk (by linarith)
    rw [div_mul_cancel₀ _ (by linarith : W0 + 1 ≠ 0)] at hk'
    have : d ^ k * W0 ≤ d ^ k * (W0 + 1) :=
      mul_le_mul_of_nonneg_left (by linarith) (pow_nonneg hd0 k)
    linarith
  have h4 : (1 - d) * deltaSeq C d f0 k p < (1 - d) / 1000 := by
    linarith
  have h5 : (1 - d) * deltaSeq C d f0 k p < (1 - d) * (1 / 1000) := by
    rw [mul_one_div]
    exact h4
  exact lt_of_mul_lt_mul_left h5 (by linarith)


/-- The association-list iterate chain: the `pr` dict after `k` passes. -/
def prSeqA (C : Graph) (d : ℚ) (pr0 : List (Page × ℚ)) : ℕ → List (Page × ℚ)
  | 0 => pr0
  | k + 1 => (iterPass C d (prSeqA C d pr0 k)).1

theorem prSeqA_fun (C : Graph) (d : ℚ) (pr0 : List (Page × ℚ)) :
    ∀ k, prFun (prSeqA C d pr0 k) = prSeqF C d (prFun pr0) k := by
  intro k
  induction k with
  | zero => rfl
  | succ k ih =>
      show prFun (iterPass C d (prSeqA C d pr0 k)).1 = _
      rw [iterPass_fst, ih]
      rfl

theorem prSeqA_shift (C : Graph) (d : ℚ) (pr0 : List (Page × ℚ)) :
    ∀ k, prSeqA C d ((iterPass C d pr0).1) k = prSeqA C d pr0 (k + 1) := by
  intro k
  induction k with
  | zero => rfl
  | succ k ih =>
      show (iterPass C d (prSeqA C d ((iterPass C d pr0).1) k)).1 = _
      rw [ih]
      rfl

/-- If the pass performed after `k` further passes raises no `change` flag,
the loop returns within `k + 1` iterations. -/
theorem iterLoop_some_of_flag (C : Graph) (d : ℚ) :
    ∀ (k : ℕ) (pr : List (Page × ℚ)),
      (iterPass C d (prSeqA C d pr k)).2 = false →
      ∃ res, iterLoop C d (k + 1) pr true = some res := by
  intro k
  induction k with
  | zero =>
      intro pr h
      rw [iterLoop_true_succ]
      have hpr : prSeqA C d pr 0 = pr := rfl
      rw [hpr] at h
      rw [h, iterLoop_false]
      exact ⟨_, rfl⟩
  | succ k ih =>
      intro pr h
      rw [iterLoop_true_succ]
      cases hch : (iterPass C d pr).2 with
      | false =>
          rw [iterLoop_false]
          exact ⟨_, rfl⟩
      | true =>
          have h' : (iterPass C d (prSeqA C d ((iterPass C d pr).1) k)).2 =
              false := by
            rw [prSeqA_shift]
            exact h
          exact ih ((iterPass C d pr).1) h'

/-- C9: for every graph satisfying the input invariants (distinct page
identifiers, outbound links inside the corpus) and every damping factor
`0 ≤ d < 1`, the convergence loop of `iterate_pagerank` terminates: some
finite fuel makes it return. -/
theorem iterate_pagerank_terminates (corpus : Graph) (d : ℚ)
    (hnd : (dictKeys corpus).Nodup)
    (hsub : ∀ e ∈ corpus, e.2 ⊆ (dictKeys corpus).toFinset)
    (hd0 : 0 ≤ d) (hd1 : d < 1) :
    ∃ fuel pr, iterate_pagerank corpus d fuel = some pr := by
  have hk : dictKeys (preprocess corpus) = dictKeys corpus := by
    unfold preprocess
    exact dictKeys_map corpus _
  have hndC : (dictKeys (preprocess corpus)).Nodup := by rw [hk]; exact hnd
  have houtC : ∀ e ∈ preprocess corpus,
      e.2 ⊆ (dictKeys (preprocess corpus)).toFinset := by
    intro e he
    obtain ⟨e₀, he₀, rfl⟩ := List.mem_map.mp he
    rw [hk]
    show (if e₀.2 = ∅ then (dictKeys corpus).toFinset else e₀.2) ⊆ _
    by_cases hz : e₀.2 = ∅
    · rw [if_pos hz]
    · rw [if_neg hz]
      exact hsub e₀ he₀
  set pr0 := (preprocess corpus).map
    (fun e => (e.1, 1 / (corpus.length : ℚ))) with hpr0
  obtain ⟨k, hsmall⟩ := exists_small_pass (preprocess corpus) d hndC houtC
    hd0 hd1 (prFun pr0)
  have hflag : (iterPass (preprocess corpus) d
      (prSeqA (preprocess corpus) d pr0 k)).2 = false := by
    apply iterPass_flag_false _ _ _ hndC
    intro p hp
    rw [prSeqA_fun]
    have h1 : fpassF (preprocess corpus) d (dictKeys (preprocess corpus))
        (prSeqF (preprocess corpus) d (prFun pr0) k) =
        prSeqF (preprocess corpus) d (prFun pr0) (k + 1) := rfl
    rw [h1]
    rw [abs_sub_comm]
    exact hsmall p hp
  obtain ⟨res, hres⟩ := iterLoop_some_of_flag (preprocess corpus) d k pr0 hflag
  exact ⟨k + 1, res, hres⟩

/-- Witness for C9 on the concrete two-page graph. -/
theorem iterate_pagerank_terminates_witness :
    ∃ fuel pr, iterate_pagerank corpusAB (17/20) fuel = some pr :=
  iterate_pagerank_terminates corpusAB (17/20) (by decide) (by decide)
    (by norm_num) (by norm_num)


end PageRank
